import Mathlib

/-!
# Verification of the `python-edata` reconciliation, gap-scan, tariff,
# aggregation and persistence-validation logic

Shallow embedding of the relevant parts of the repository:

* `edata/processors/utils.py` — `extend_by_key`, `get_by_key`,
  `extract_dt_ranges`, `get_pvpc_tariff`, `deserialize_dict`;
* `edata/processors/consumption.py` — `ConsumptionProcessor.do_process`;
* `edata/processors/billing.py` — the monthly-bucket key of
  `BillingProcessor.do_process`;
* `edata/helpers.py` — the supply-lookup prefix of
  `EdataHelper.update_datadis`;
* `edata/definitions.py` — `check_integrity`.

Python dicts of one stream all share one schema, so overwriting every
field of an existing dict with the fields of an incoming dict
(`for i in old_element: old_element[i] = new_element[i]`) is modelled as
replacing the record wholesale.  Timestamps and kWh values are exact in
Python (`datetime` arithmetic is exact, and the test data are decimal
literals), and are modelled as rationals / integer calendar fields.
-/

namespace Edata

/-! ## `extend_by_key` (edata/processors/utils.py, lines 63-76)

```python
def extend_by_key(old_lst, new_lst, key):
    lst = deepcopy(old_lst)
    temp_list = []
    for new_element in new_lst:
        for old_element in lst:
            if new_element[key] == old_element[key]:
                for i in old_element:
                    old_element[i] = new_element[i]
                break
        else:
            temp_list.append(new_element)
    lst.extend(temp_list)
    return lst
```

The inner `for`/`break` scans `lst` (the copy of `old_lst`, updated in
place but never extended inside the loop) for the first element whose
key equals the incoming element's key and overwrites it; if no element
matches, the incoming element is queued on `temp_list`, which is
appended after the loop.  `keyf` abstracts the key-field selection. -/

/-- Overwrite the first element of the list whose key equals `keyf a`
with `a`; `none` when no element matches.  This is the inner
`for`/`break` loop of `extend_by_key`. -/
def updateFirst {ρ α : Type} [DecidableEq α] (keyf : ρ → α) (a : ρ) : List ρ → Option (List ρ)
  | [] => none
  | b :: bs => if keyf b = keyf a then some (a :: bs) else (updateFirst keyf a bs).map (b :: ·)

/-- The outer loop of `extend_by_key`: returns the updated `lst` and the
`temp_list` of unmatched incoming elements, in incoming order. -/
def extendCore {ρ α : Type} [DecidableEq α] (keyf : ρ → α) : List ρ → List ρ → List ρ × List ρ
  | lst, [] => (lst, [])
  | lst, a :: rest =>
      match updateFirst keyf a lst with
      | some lst' => extendCore keyf lst' rest
      | none =>
          let r := extendCore keyf lst rest
          (r.1, a :: r.2)

/-- `extend_by_key(old_lst, new_lst, key)`:  `lst.extend(temp_list); return lst`. -/
def extend_by_key {ρ α : Type} [DecidableEq α] (keyf : ρ → α) (old_lst new_lst : List ρ) :
    List ρ :=
  (extendCore keyf old_lst new_lst).1 ++ (extendCore keyf old_lst new_lst).2

/-- `get_by_key` (edata/processors/utils.py, lines 79-84): first element whose
key field equals `value`, else `None`. -/
def get_by_key {ρ α : Type} [DecidableEq α] (keyf : ρ → α) (lst : List ρ) (value : α) :
    Option ρ :=
  match lst with
  | [] => none
  | i :: rest => if keyf i = value then some i else get_by_key keyf rest value

/-! ## `extract_dt_ranges` (edata/processors/utils.py, lines 33-60)

```python
def extract_dt_ranges(lst, dt_from, dt_to, gap_interval=timedelta(hours=1)):
    new_lst = []
    missing = []
    oldest_dt = None
    newest_dt = None
    last_dt = None
    if len(lst) > 0:
        sorted_lst = sorted(lst, key=lambda i: i["datetime"])
        last_dt = dt_from
        for i in sorted_lst:
            if dt_from <= i["datetime"] <= dt_to:
                if (i["datetime"] - last_dt) > gap_interval:
                    missing.append({"from": last_dt, "to": i["datetime"]})
                if i.get("value_kWh", 1) > 0:
                    ... # oldest_dt / newest_dt tracking, used only for a debug log
                if i["datetime"] != last_dt:  # remove duplicates
                    new_lst.append(i)
                    last_dt = i["datetime"] + timedelta(hours=i.get("delta_h", 0))
        if dt_to > last_dt:
            missing.append({"from": last_dt, "to": dt_to})
    else:
        missing.append({"from": dt_from, "to": dt_to})
    return new_lst, missing
```

Python `datetime` and `timedelta` values are integer numbers of
microseconds internally, so the timeline is modelled as `ℤ` (time units
since an epoch); only order, difference and addition are used.  The
`oldest_dt`/`newest_dt` tracking feeds only `_LOGGER.debug` and does not
affect the returned value, so it is not modelled.  `delta_h` is optional
(`i.get("delta_h", 0)`): maximeter records have none, consumption and
pricing records carry it; the field stored here is the already-converted
`timedelta(hours=delta_h)`, since `timedelta(hours=·)` is a monotone
injection into the timeline.  Python's `sorted` is a stable sort by the
`datetime` key; `insertionSort` with `(·.datetime ≤ ·.datetime)` is the
canonical stable sort and hence produces the same list. -/

structure TsRec where
  datetime : ℤ
  delta_h : Option ℤ
  deriving DecidableEq

structure Gap where
  lo : ℤ
  hi : ℤ
  deriving DecidableEq

structure ExtractState where
  new_lst : List TsRec
  missing : List Gap
  last_dt : ℤ
  deriving DecidableEq

def sortRecs (lst : List TsRec) : List TsRec :=
  List.insertionSort (fun a b => a.datetime ≤ b.datetime) lst

/-- One iteration of the `for i in sorted_lst` loop. -/
def extractStep (dt_from dt_to gap_interval : ℤ) (st : ExtractState) (i : TsRec) :
    ExtractState :=
  if dt_from ≤ i.datetime ∧ i.datetime ≤ dt_to then
    let st1 := if i.datetime - st.last_dt > gap_interval then
        { st with missing := st.missing ++ [⟨st.last_dt, i.datetime⟩] } else st
    if i.datetime ≠ st1.last_dt then
      { new_lst := st1.new_lst ++ [i], missing := st1.missing,
        last_dt := i.datetime + i.delta_h.getD 0 }
    else st1
  else st

def extract_dt_ranges (lst : List TsRec) (dt_from dt_to gap_interval : ℤ) :
    List TsRec × List Gap :=
  if 0 < lst.length then
    let st := (sortRecs lst).foldl (extractStep dt_from dt_to gap_interval) ⟨[], [], dt_from⟩
    (st.new_lst, if dt_to > st.last_dt then st.missing ++ [⟨st.last_dt, dt_to⟩] else st.missing)
  else ([], [⟨dt_from, dt_to⟩])

/-- The cursor (`last_dt`) computation of the loop, on its own: it is
updated exactly when a record is appended to `new_lst`. -/
def cursorStep (dt_from dt_to : ℤ) (last : ℤ) (i : TsRec) : ℤ :=
  if dt_from ≤ i.datetime ∧ i.datetime ≤ dt_to then
    (if i.datetime ≠ last then i.datetime + i.delta_h.getD 0 else last)
  else last

/-- Final value of the cursor after the walk over the sorted series. -/
def cursorAfter (lst : List TsRec) (dt_from dt_to : ℤ) : ℤ :=
  (sortRecs lst).foldl (cursorStep dt_from dt_to) dt_from

/-- The interior-gap computation of the loop, on its own. -/
def intStep (dt_from dt_to gap_interval : ℤ) (st : ℤ × List Gap) (i : TsRec) :
    ℤ × List Gap :=
  if dt_from ≤ i.datetime ∧ i.datetime ≤ dt_to then
    let gaps := if i.datetime - st.1 > gap_interval then st.2 ++ [⟨st.1, i.datetime⟩] else st.2
    (if i.datetime ≠ st.1 then i.datetime + i.delta_h.getD 0 else st.1, gaps)
  else st

/-- The gaps emitted between records (step 4 of the walk), without the
trailing gap. -/
def interiorGaps (lst : List TsRec) (dt_from dt_to gap_interval : ℤ) : List Gap :=
  ((sortRecs lst).foldl (intStep dt_from dt_to gap_interval) (dt_from, [])).2

/-! ## Calendar model (Python `datetime.date` arithmetic)

`datetime.replace`/`timedelta(days=n)` arithmetic over the proleptic
Gregorian calendar, as used by `ConsumptionProcessor.do_process` and
`BillingProcessor.do_process`.  Records carry whole hours, so a
`DateTime` is a calendar date plus an hour. -/

structure Date where
  year : ℤ
  month : ℤ
  day : ℤ
  deriving DecidableEq

structure DateTime where
  date : Date
  hour : ℤ
  deriving DecidableEq

/-- Lexicographic (chronological) order on dates. -/
def dateLe (a b : Date) : Prop :=
  a.year < b.year ∨ (a.year = b.year ∧
    (a.month < b.month ∨ (a.month = b.month ∧ a.day ≤ b.day)))

instance : DecidableRel dateLe := fun a b => by unfold dateLe; infer_instance

/-- Lexicographic (chronological) order on datetimes. -/
def dtLe (a b : DateTime) : Prop :=
  a.date.year < b.date.year ∨ (a.date.year = b.date.year ∧
    (a.date.month < b.date.month ∨ (a.date.month = b.date.month ∧
      (a.date.day < b.date.day ∨ (a.date.day = b.date.day ∧ a.hour ≤ b.hour)))))

instance : DecidableRel dtLe := fun a b => by unfold dtLe; infer_instance

def isLeap (y : ℤ) : Prop := y % 4 = 0 ∧ (y % 100 ≠ 0 ∨ y % 400 = 0)

instance : DecidablePred isLeap := fun y => by unfold isLeap; infer_instance

def monthLen (y m : ℤ) : ℤ :=
  if m = 2 then (if isLeap y then 29 else 28)
  else if m = 4 ∨ m = 6 ∨ m = 9 ∨ m = 11 then 30 else 31

/-- A well-formed Gregorian calendar date (what Python's `datetime`
guarantees for every value it constructs). -/
def Date.Valid (d : Date) : Prop :=
  1 ≤ d.month ∧ d.month ≤ 12 ∧ 1 ≤ d.day ∧ d.day ≤ monthLen d.year d.month

instance : DecidablePred Date.Valid := fun d => by unfold Date.Valid; infer_instance

/-- `date - timedelta(days=1)`. -/
def subDay (d : Date) : Date :=
  if 1 < d.day then { d with day := d.day - 1 }
  else if 1 < d.month then ⟨d.year, d.month - 1, monthLen d.year (d.month - 1)⟩
  else ⟨d.year - 1, 12, 31⟩

/-- `date - timedelta(days=n)`. -/
def subDays (n : ℕ) (d : Date) : Date := subDay^[n] d

/-! ## `get_pvpc_tariff` (edata/processors/utils.py, lines 87-99)

```python
HOURS_P1 = [10, 11, 12, 13, 18, 19, 20, 21]
HOURS_P2 = [8, 9, 14, 15, 16, 17, 22, 23]
WEEKDAYS_P3 = [5, 6]

def get_pvpc_tariff(a_datetime):
    hdays = holidays.country_holidays("ES")
    hour = a_datetime.hour
    weekday = a_datetime.weekday()
    if weekday in WEEKDAYS_P3 or a_datetime.date() in hdays:
        return "p3"
    elif hour in HOURS_P1:
        return "p1"
    elif hour in HOURS_P2:
        return "p2"
    else:
        return "p3"
```

The Spanish public-holiday calendar comes from the external `holidays`
package and is modelled as an opaque predicate `hdays : Date → Bool`
passed as a parameter.  `weekday` is Python's `date.weekday()`
(Monday = 0, …, Sunday = 6), computed from the civil day number. -/

inductive Tariff where
  | p1
  | p2
  | p3
  deriving DecidableEq

def HOURS_P1 : List ℤ := [10, 11, 12, 13, 18, 19, 20, 21]

def HOURS_P2 : List ℤ := [8, 9, 14, 15, 16, 17, 22, 23]

def WEEKDAYS_P3 : List ℤ := [5, 6]

/-- Days since 1970-01-01 of a civil date (the standard `days_from_civil`
algorithm; all divisions are on nonnegative operands). -/
def daysFromCivil (d : Date) : ℤ :=
  let y := if d.month ≤ 2 then d.year - 1 else d.year
  let era := (if 0 ≤ y then y else y - 399) / 400
  let yoe := y - era * 400
  let mp := (d.month + 9) % 12
  let doy := (153 * mp + 2) / 5 + d.day - 1
  let doe := yoe * 365 + yoe / 4 - yoe / 100 + doy
  era * 146097 + doe - 719468

/-- Python `date.weekday()`: Monday = 0, …, Sunday = 6
(1970-01-01 was a Thursday, weekday 3). -/
def Date.weekday (d : Date) : ℤ := (daysFromCivil d + 3) % 7

def get_pvpc_tariff (hdays : Date → Bool) (a_datetime : DateTime) : Tariff :=
  if a_datetime.date.weekday ∈ WEEKDAYS_P3 ∨ hdays a_datetime.date then .p3
  else if a_datetime.hour ∈ HOURS_P1 then .p1
  else if a_datetime.hour ∈ HOURS_P2 then .p2
  else .p3

/-! ## `ConsumptionProcessor.do_process` (edata/processors/consumption.py)

One pass over the (already reconciled, sorted) consumption series.  For
each record the code computes

```python
curr_day_dt = curr_hour_dt.replace(hour=0, minute=0, second=0)
curr_month_dt = (curr_day_dt - timedelta(days=self._cycle_offset)).replace(day=1)
```

with `self._cycle_offset = cycle_start_day - 1`, splits the energy by
`get_pvpc_tariff(curr_hour_dt)`, and maintains running daily and monthly
buckets: a new bucket is appended when the bucket key differs from the
previous record's key (`last_day_dt` / `last_month_dt`), otherwise the
fields of the last bucket are accumulated.  Since every record merged
into the open bucket has the bucket's own key, comparing against the
previous record's key and comparing against the open (last) bucket's
`datetime` are the same test; the model keeps the open bucket explicit.
At the end every `float` field of every bucket is rounded to 2 decimals
(`round(x, 2)`); kWh quantities are modelled as `ℚ` and the rounding as
`round2` (the claims proved here do not depend on the tie-breaking rule
of Python's float `round`). -/

structure ConsumptionRec where
  datetime : DateTime
  delta_h : ℚ
  value_kWh : ℚ
  surplus_kWh : ℚ
  real : Bool
  deriving DecidableEq

structure ConsumptionAgg where
  datetime : DateTime
  value_kWh : ℚ
  value_p1_kWh : ℚ
  value_p2_kWh : ℚ
  value_p3_kWh : ℚ
  surplus_kWh : ℚ
  surplus_p1_kWh : ℚ
  surplus_p2_kWh : ℚ
  surplus_p3_kWh : ℚ
  delta_h : ℚ
  deriving DecidableEq

/-- `kwh_by_tariff` / `surplus_kwh_by_tariff`: the `match tariff` block. -/
def kwhByTariff (t : Tariff) (kwh : ℚ) : ℚ × ℚ × ℚ :=
  match t with
  | .p1 => (kwh, 0, 0)
  | .p2 => (0, kwh, 0)
  | .p3 => (0, 0, kwh)

/-- Opening a fresh bucket from one record (the `append` branch). -/
def newBucket (hdays : Date → Bool) (key : DateTime) (c : ConsumptionRec) : ConsumptionAgg :=
  let t := get_pvpc_tariff hdays c.datetime
  let kt := kwhByTariff t c.value_kWh
  let st := kwhByTariff t c.surplus_kWh
  { datetime := key
    value_kWh := c.value_kWh
    value_p1_kWh := kt.1
    value_p2_kWh := kt.2.1
    value_p3_kWh := kt.2.2
    surplus_kWh := c.surplus_kWh
    surplus_p1_kWh := st.1
    surplus_p2_kWh := st.2.1
    surplus_p3_kWh := st.2.2
    delta_h := c.delta_h }

/-- Accumulating one record into the open bucket (the `else` branch). -/
def addToBucket (hdays : Date → Bool) (b : ConsumptionAgg) (c : ConsumptionRec) :
    ConsumptionAgg :=
  let t := get_pvpc_tariff hdays c.datetime
  let kt := kwhByTariff t c.value_kWh
  let st := kwhByTariff t c.surplus_kWh
  { b with
    value_kWh := b.value_kWh + c.value_kWh
    value_p1_kWh := b.value_p1_kWh + kt.1
    value_p2_kWh := b.value_p2_kWh + kt.2.1
    value_p3_kWh := b.value_p3_kWh + kt.2.2
    surplus_kWh := b.surplus_kWh + c.surplus_kWh
    surplus_p1_kWh := b.surplus_p1_kWh + st.1
    surplus_p2_kWh := b.surplus_p2_kWh + st.2.1
    surplus_p3_kWh := b.surplus_p3_kWh + st.2.2
    delta_h := b.delta_h + c.delta_h }

/-- The running-bucket walk with an open bucket `cur`: merge while the
key matches, close and reopen when it changes. -/
def aggRuns (hdays : Date → Bool) (f : ConsumptionRec → DateTime) :
    ConsumptionAgg → List ConsumptionRec → List ConsumptionAgg
  | cur, [] => [cur]
  | cur, c :: cs =>
      if f c = cur.datetime then aggRuns hdays f (addToBucket hdays cur c) cs
      else cur :: aggRuns hdays f (newBucket hdays (f c) c) cs

/-- The whole bucketing loop for one key function. -/
def aggConsume (hdays : Date → Bool) (f : ConsumptionRec → DateTime) :
    List ConsumptionRec → List ConsumptionAgg
  | [] => []
  | c :: cs => aggRuns hdays f (newBucket hdays (f c) c) cs

/-- `curr_day_dt`: the hour (and minutes/seconds) zeroed out. -/
def dayKey (dt : DateTime) : DateTime := ⟨dt.date, 0⟩

/-- `curr_month_dt` of the consumption processor:
`(curr_day_dt - timedelta(days=cycle_offset)).replace(day=1)`. -/
def monthKeyC (cycle_offset : ℕ) (dt : DateTime) : DateTime :=
  ⟨⟨(subDays cycle_offset dt.date).year, (subDays cycle_offset dt.date).month, 1⟩, 0⟩

/-- `round(x, 2)` on exact rationals. -/
def round2 (q : ℚ) : ℚ := ((round (q * 100) : ℤ) : ℚ) / 100

/-- The final `for key in cons: cons[key] = round(cons[key], 2)` pass
(every field except the datetime is a float). -/
def roundBucket (b : ConsumptionAgg) : ConsumptionAgg :=
  { datetime := b.datetime
    value_kWh := round2 b.value_kWh
    value_p1_kWh := round2 b.value_p1_kWh
    value_p2_kWh := round2 b.value_p2_kWh
    value_p3_kWh := round2 b.value_p3_kWh
    surplus_kWh := round2 b.surplus_kWh
    surplus_p1_kWh := round2 b.surplus_p1_kWh
    surplus_p2_kWh := round2 b.surplus_p2_kWh
    surplus_p3_kWh := round2 b.surplus_p3_kWh
    delta_h := round2 b.delta_h }

/-- `ConsumptionProcessor.do_process`: (daily, monthly) bucket lists.
The daily and monthly accumulations in the Python loop touch disjoint
state (`daily`/`last_day_dt` vs `monthly`/`last_month_dt`), so the
single interleaved loop equals two independent passes. -/
def consumption_do_process (hdays : Date → Bool) (cycle_start_day : ℕ)
    (consumptions : List ConsumptionRec) :
    List ConsumptionAgg × List ConsumptionAgg :=
  let off := cycle_start_day - 1
  ((aggConsume hdays (fun c => dayKey c.datetime) consumptions).map roundBucket,
   (aggConsume hdays (fun c => monthKeyC off c.datetime) consumptions).map roundBucket)

/-! ## `BillingProcessor.do_process` roll-up keys (edata/processors/billing.py)

The hourly-to-daily/monthly roll-up of the billing processor uses

```python
curr_day_dt = curr_hour_dt.replace(hour=0, minute=0, second=0)
curr_month_dt = curr_day_dt.replace(day=1)
```

— a plain calendar-month boundary.  The input schema of
`BillingProcessor.do_process` has no `cycle_start_day` option at all. -/

/-- `curr_month_dt` of the billing processor: `curr_day_dt.replace(day=1)`. -/
def billingMonthKey (dt : DateTime) : DateTime :=
  ⟨⟨dt.date.year, dt.date.month, 1⟩, 0⟩

/-- The billing-month key of the consumption processor, as a function of
the configured `cycle_start_day` (the claim under test says the billing
processor matches this for every `cycle_start_day`). -/
def consumptionMonthKey (cycle_start_day : ℕ) (dt : DateTime) : DateTime :=
  monthKeyC (cycle_start_day - 1) dt

/-! ## `EdataHelper.update_datadis`, supply lookup (edata/helpers.py, lines 193-231)

```python
self.update_supplies()
if len(self.data["supplies"]) == 0:
    _LOGGER.warning("Supplies query failed or no supplies found ...")
    return False
supply = utils.get_by_key(self.data["supplies"], "cups", cups)
if supply is None:
    _LOGGER.error("CUPS %s not found in %s, wrong CUPS?", ...)
    return False
...  # continue with the update
```

Modelled over the post-`update_supplies` supply list.  The outcome of
this prefix records the returned value (if the function returns here),
any exception raised (the code raises none — no `NotFoundError` class
exists anywhere in the repository) and the severity of the log line. -/

structure SupplyData where
  cups : String
  deriving DecidableEq

inductive LogLevel where
  | warning
  | error
  deriving DecidableEq

structure UpdateStepOutcome where
  retval : Option Bool
  raised : Option String
  log : Option LogLevel
  deriving DecidableEq

def update_datadis_supply_check (supplies : List SupplyData) (cups : String) :
    UpdateStepOutcome :=
  if supplies.length = 0 then ⟨some false, none, some .warning⟩
  else
    match get_by_key (fun s : SupplyData => s.cups) supplies cups with
    | none => ⟨some false, none, some .error⟩
    | some _ => ⟨none, none, none⟩

/-! ## `check_integrity` (edata/definitions.py, lines 283-287) and the
integrity gate of `deserialize_dict` (edata/processors/utils.py)

```python
def check_integrity(item: Iterable, definition: _TypedDictMeta):
    """Check if an item follows a given definition."""
    if all(k in item for k in definition.__required_keys__):
        return True
    return True
```

An item is modelled by the list of keys it contains; a TypedDict
definition by its `__required_keys__` list (every field of these
TypedDicts is required).  Note both branches of the Python function
return `True`.

`deserialize_dict` parses datetimes (irrelevant to acceptance) and then,
for each of the five canonical series present in the document, returns
`None` unless every record passes `check_integrity`; an empty document
falls through and also yields `None`.  Records are JSON objects, so the
`isinstance(..., list)` guards on the series themselves are modelled as
always passing. -/

def check_integrity (item : List String) (required_keys : List String) : Bool :=
  if required_keys.all (fun k => item.contains k) then true else true

def SupplyData_required : List String :=
  ["cups", "date_start", "date_end", "address", "postal_code", "province",
   "municipality", "distributor", "pointType", "distributorCode"]

def ContractData_required : List String :=
  ["date_start", "date_end", "marketer", "distributorCode", "power_p1", "power_p2"]

def ConsumptionData_required : List String :=
  ["datetime", "delta_h", "value_kWh", "surplus_kWh", "real"]

def MaxPowerData_required : List String := ["datetime", "value_kW"]

def PricingData_required : List String := ["datetime", "value_eur_kWh", "delta_h"]

def seriesRequired (key : String) : Option (List String) :=
  if key = "supplies" then some SupplyData_required
  else if key = "contracts" then some ContractData_required
  else if key = "consumptions" then some ConsumptionData_required
  else if key = "maximeter" then some MaxPowerData_required
  else if key = "pvpc" then some PricingData_required
  else none

/-- The acceptance decision of `deserialize_dict`: a document is a list
of `(key, records)` pairs, each record the list of its present keys. -/
def deserialize_dict (data : List (String × List (List String))) :
    Option (List (String × List (List String))) :=
  if data ≠ [] ∧ data.all (fun kv =>
      match seriesRequired kv.1 with
      | some req => kv.2.all (fun item => check_integrity item req)
      | none => true) then
    some data
  else none

/-- A small concrete consumption series (two hourly records in different
billing months for `cycle_start_day = 15`), used to instantiate the
aggregation theorems on a concrete input. -/
def sampleConsumptions : List ConsumptionRec :=
  [⟨⟨⟨2023, 1, 10⟩, 5⟩, 1, 2, 0, true⟩, ⟨⟨⟨2023, 2, 20⟩, 6⟩, 1, 3, 0, true⟩]

section ExtendLemmas

variable {ρ α : Type} [DecidableEq α] (keyf : ρ → α)

theorem updateFirst_eq_none_iff (a : ρ) (l : List ρ) :
    updateFirst keyf a l = none ↔ ∀ b ∈ l, keyf b ≠ keyf a := by
  induction l with
  | nil => simp [updateFirst]
  | cons b bs ih =>
      by_cases h : keyf b = keyf a
      · simp [updateFirst, h]
      · simp [updateFirst, h, ih]

theorem updateFirst_map_key (a : ρ) (l l' : List ρ)
    (h : updateFirst keyf a l = some l') : l'.map keyf = l.map keyf := by
  induction l generalizing l' with
  | nil => simp [updateFirst] at h
  | cons b bs ih =>
      by_cases hb : keyf b = keyf a
      · simp [updateFirst, hb] at h
        subst h; simp [hb]
      · simp [updateFirst, hb] at h
        obtain ⟨m, hm, rfl⟩ := h
        simp [ih m hm]

theorem updateFirst_get_self (a : ρ) (l l' : List ρ)
    (h : updateFirst keyf a l = some l') :
    get_by_key keyf l' (keyf a) = some a := by
  induction l generalizing l' with
  | nil => simp [updateFirst] at h
  | cons b bs ih =>
      by_cases hb : keyf b = keyf a
      · simp [updateFirst, hb] at h
        subst h; simp [get_by_key]
      · simp [updateFirst, hb] at h
        obtain ⟨m, hm, rfl⟩ := h
        simp [get_by_key, hb, ih m hm]

theorem updateFirst_get_other (a : ρ) (l l' : List ρ) (k : α)
    (h : updateFirst keyf a l = some l') (hk : k ≠ keyf a) :
    get_by_key keyf l' k = get_by_key keyf l k := by
  induction l generalizing l' with
  | nil => simp [updateFirst] at h
  | cons b bs ih =>
      by_cases hb : keyf b = keyf a
      · simp only [updateFirst, hb, if_pos] at h
        obtain rfl : a :: bs = l' := Option.some.inj h
        simp only [get_by_key]
        rw [hb, if_neg (fun h' => hk h'.symm), if_neg (fun h' => hk h'.symm)]
      · simp [updateFirst, hb] at h
        obtain ⟨m, hm, rfl⟩ := h
        simp [get_by_key, ih m hm]

theorem updateFirst_of_get_self (a : ρ) (l : List ρ)
    (h : get_by_key keyf l (keyf a) = some a) :
    updateFirst keyf a l = some l := by
  induction l with
  | nil => simp [get_by_key] at h
  | cons b bs ih =>
      by_cases hb : keyf b = keyf a
      · simp [get_by_key, hb] at h
        simp [updateFirst, hb, h]
      · simp [get_by_key, hb] at h
        simp [updateFirst, hb, ih h]

theorem extendCore_map_key (S A : List ρ) :
    (extendCore keyf S A).1.map keyf = S.map keyf := by
  induction A generalizing S with
  | nil => simp [extendCore]
  | cons a rest ih =>
      cases h : updateFirst keyf a S with
      | none => simpa [extendCore, h] using ih S
      | some S' =>
          simp only [extendCore, h]
          rw [ih S', updateFirst_map_key keyf a S S' h]

theorem get_by_key_append_cons_ne (l₁ l₂ : List ρ) (a : ρ) (k : α) (h : keyf a ≠ k) :
    get_by_key keyf (l₁ ++ a :: l₂) k = get_by_key keyf (l₁ ++ l₂) k := by
  induction l₁ with
  | nil => simp [get_by_key, h]
  | cons b bs ih =>
      by_cases hb : keyf b = k
      · simp [get_by_key, hb]
      · simp [get_by_key, hb, ih]

theorem extendCore_get_notmem (S A : List ρ) (k : α) (hk : k ∉ A.map keyf) :
    get_by_key keyf ((extendCore keyf S A).1 ++ (extendCore keyf S A).2) k =
      get_by_key keyf S k := by
  induction A generalizing S with
  | nil => simp [extendCore]
  | cons a rest ih =>
      simp only [List.map_cons, List.mem_cons, not_or] at hk
      obtain ⟨hka, hkrest⟩ := hk
      cases h : updateFirst keyf a S with
      | none =>
          simp only [extendCore, h]
          rw [get_by_key_append_cons_ne keyf _ _ a k (fun hkeq => hka hkeq.symm)]
          exact ih S hkrest
      | some S' =>
          simp only [extendCore, h]
          rw [ih S' hkrest]
          exact updateFirst_get_other keyf a S S' k h hka

theorem get_by_key_mem (l : List ρ) (k : α) (a : ρ) (h : get_by_key keyf l k = some a) :
    a ∈ l := by
  induction l with
  | nil => simp [get_by_key] at h
  | cons b bs ih =>
      by_cases hb : keyf b = k
      · simp [get_by_key, hb] at h
        simp [h]
      · simp [get_by_key, hb] at h
        exact List.mem_cons_of_mem b (ih h)

theorem get_by_key_append_left_none (l₁ l₂ : List ρ) (k : α)
    (h : ∀ b ∈ l₁, keyf b ≠ k) :
    get_by_key keyf (l₁ ++ l₂) k = get_by_key keyf l₂ k := by
  induction l₁ with
  | nil => simp
  | cons b bs ih =>
      simp only [List.cons_append, get_by_key, if_neg (h b (List.mem_cons_self b bs))]
      exact ih (fun c hc => h c (List.mem_cons_of_mem b hc))

theorem extendCore_get_self (S A : List ρ) (hnd : (A.map keyf).Nodup) (a : ρ) (ha : a ∈ A) :
    get_by_key keyf ((extendCore keyf S A).1 ++ (extendCore keyf S A).2) (keyf a) = some a := by
  induction A generalizing S with
  | nil => simp at ha
  | cons b rest ih =>
      simp only [List.map_cons, List.nodup_cons] at hnd
      obtain ⟨hbk, hnd'⟩ := hnd
      cases h : updateFirst keyf b S with
      | some S' =>
          simp only [extendCore, h]
          rcases List.mem_cons.mp ha with rfl | hmem
          · rw [extendCore_get_notmem keyf S' rest (keyf a) hbk]
            exact updateFirst_get_self keyf a S S' h
          · exact ih S' hnd' hmem
      | none =>
          simp only [extendCore, h]
          rcases List.mem_cons.mp ha with rfl | hmem
          · have hnot : ∀ c ∈ (extendCore keyf S rest).1, keyf c ≠ keyf a := by
              intro c hc hceq
              have : keyf c ∈ (extendCore keyf S rest).1.map keyf := List.mem_map_of_mem keyf hc
              rw [extendCore_map_key] at this
              rw [updateFirst_eq_none_iff] at h
              obtain ⟨d, hd, hdeq⟩ := List.mem_map.mp this
              exact h d hd (hdeq.trans hceq)
            rw [get_by_key_append_left_none keyf _ _ _ hnot]
            simp [get_by_key]
          · have hne : keyf b ≠ keyf a := by
              intro hcontra
              exact hbk (hcontra ▸ List.mem_map_of_mem keyf hmem)
            rw [get_by_key_append_cons_ne keyf _ _ b (keyf a) hne]
            exact ih S hnd' hmem

theorem extendCore_fix (A R : List ρ)
    (h : ∀ a ∈ A, get_by_key keyf R (keyf a) = some a) :
    extendCore keyf R A = (R, []) := by
  induction A with
  | nil => rfl
  | cons a rest ih =>
      have hup : updateFirst keyf a R = some R :=
        updateFirst_of_get_self keyf a R (h a (List.mem_cons_self a rest))
      simp only [extendCore, hup]
      exact ih (fun b hb => h b (List.mem_cons_of_mem a hb))

theorem extendCore_temp (S A : List ρ) :
    (extendCore keyf S A).2 = A.filter (fun a => decide (keyf a ∉ S.map keyf)) := by
  induction A generalizing S with
  | nil => simp [extendCore]
  | cons a rest ih =>
      cases h : updateFirst keyf a S with
      | some S' =>
          have hmem : keyf a ∈ S.map keyf := by
            by_contra hno
            have hnone : updateFirst keyf a S = none := by
              rw [updateFirst_eq_none_iff]
              intro b hb hbeq
              exact hno (hbeq ▸ List.mem_map_of_mem keyf hb)
            rw [hnone] at h
            exact Option.noConfusion h
          simp only [extendCore, h, List.filter_cons]
          rw [if_neg (by simpa using hmem)]
          rw [ih S']
          congr 1
          funext x
          rw [updateFirst_map_key keyf a S S' h]
      | none =>
          have hno : keyf a ∉ S.map keyf := by
            rw [updateFirst_eq_none_iff] at h
            intro hmem
            obtain ⟨b, hb, hbeq⟩ := List.mem_map.mp hmem
            exact h b hb hbeq
          simp only [extendCore, h, List.filter_cons]
          rw [if_pos (by simpa using hno), ih S]

end ExtendLemmas

section ExtractLemmas

variable (dt_from dt_to gap_interval : ℤ)

theorem extractStep_last (st : ExtractState) (i : TsRec) :
    (extractStep dt_from dt_to gap_interval st i).last_dt = cursorStep dt_from dt_to st.last_dt i := by
  unfold extractStep cursorStep
  dsimp only
  split_ifs <;> rfl

theorem extractStep_missing (st : ExtractState) (i : TsRec) :
    (extractStep dt_from dt_to gap_interval st i).missing =
      (intStep dt_from dt_to gap_interval (st.last_dt, st.missing) i).2 := by
  unfold extractStep intStep
  dsimp only
  split_ifs <;> rfl

theorem intStep_fst (p : ℤ × List Gap) (i : TsRec) :
    (intStep dt_from dt_to gap_interval p i).1 = cursorStep dt_from dt_to p.1 i := by
  unfold intStep cursorStep
  dsimp only
  split_ifs <;> rfl

theorem foldl_extract_last (l : List TsRec) :
    ∀ st : ExtractState,
      (l.foldl (extractStep dt_from dt_to gap_interval) st).last_dt =
        l.foldl (cursorStep dt_from dt_to) st.last_dt := by
  induction l with
  | nil => intro st; rfl
  | cons i l ih =>
      intro st
      simp only [List.foldl_cons]
      rw [ih, extractStep_last]

theorem foldl_int_fst (l : List TsRec) :
    ∀ p : ℤ × List Gap,
      (l.foldl (intStep dt_from dt_to gap_interval) p).1 =
        l.foldl (cursorStep dt_from dt_to) p.1 := by
  induction l with
  | nil => intro p; rfl
  | cons i l ih =>
      intro p
      simp only [List.foldl_cons]
      rw [ih, intStep_fst]

theorem foldl_extract_missing (l : List TsRec) :
    ∀ st : ExtractState,
      (l.foldl (extractStep dt_from dt_to gap_interval) st).missing =
        (l.foldl (intStep dt_from dt_to gap_interval) (st.last_dt, st.missing)).2 := by
  induction l with
  | nil => intro st; rfl
  | cons i l ih =>
      intro st
      simp only [List.foldl_cons]
      rw [ih]
      have hpair : ((extractStep dt_from dt_to gap_interval st i).last_dt,
          (extractStep dt_from dt_to gap_interval st i).missing) =
          intStep dt_from dt_to gap_interval (st.last_dt, st.missing) i := by
        refine Prod.ext ?_ (extractStep_missing dt_from dt_to gap_interval st i)
        rw [intStep_fst dt_from dt_to gap_interval (st.last_dt, st.missing) i]
        exact extractStep_last dt_from dt_to gap_interval st i
      rw [hpair]

end ExtractLemmas

section CalendarLemmas

theorem monthLen_bounds (y m : ℤ) : 28 ≤ monthLen y m ∧ monthLen y m ≤ 31 := by
  unfold monthLen
  split_ifs <;> omega

theorem monthLen_december (y : ℤ) : monthLen y 12 = 31 := by
  norm_num [monthLen]

theorem subDay_valid (d : Date) (h : d.Valid) : (subDay d).Valid := by
  obtain ⟨y, m, dd⟩ := d
  have h1 := monthLen_bounds y (m - 1)
  have h2 := monthLen_december (y - 1)
  simp only [Date.Valid, subDay] at h ⊢
  split_ifs <;> dsimp only <;> omega

theorem subDay_mono (a b : Date) (ha : a.Valid) (hb : b.Valid) (h : dateLe a b) :
    dateLe (subDay a) (subDay b) := by
  obtain ⟨ya, ma, da⟩ := a
  obtain ⟨yb, mb, db⟩ := b
  by_cases hsame : ya = yb ∧ ma = mb
  · obtain ⟨rfl, rfl⟩ := hsame
    have h0 := monthLen_bounds ya ma
    have h1 := monthLen_bounds ya (ma - 1)
    simp only [Date.Valid] at ha hb
    simp only [dateLe, subDay] at h ⊢
    split_ifs <;> dsimp only <;> omega
  · by_cases hpred : yb = ya ∧ mb = ma + 1
    · obtain ⟨rfl, rfl⟩ := hpred
      have h0 := monthLen_bounds yb ma
      have h0' := monthLen_bounds yb (ma + 1)
      have h1 := monthLen_bounds yb (ma - 1)
      have h2 := monthLen_bounds yb (ma + 1 - 1)
      have h3 : monthLen yb (ma + 1 - 1) = monthLen yb ma := by norm_num
      have h4 := monthLen_december (yb - 1)
      simp only [Date.Valid] at ha hb
      simp only [dateLe, subDay] at h ⊢
      split_ifs <;> dsimp only <;> omega
    · have h0a := monthLen_bounds ya ma
      have h0b := monthLen_bounds yb mb
      have h1 := monthLen_bounds ya (ma - 1)
      have h2 := monthLen_bounds yb (mb - 1)
      have h3 := monthLen_december (ya - 1)
      have h4 := monthLen_december (yb - 1)
      simp only [Date.Valid] at ha hb
      simp only [dateLe, subDay] at h ⊢
      split_ifs <;> dsimp only <;> omega

theorem subDays_valid (n : ℕ) (d : Date) (h : d.Valid) : (subDays n d).Valid := by
  induction n with
  | zero => exact h
  | succ n ih =>
      unfold subDays at ih ⊢
      rw [Function.iterate_succ_apply']
      exact subDay_valid _ ih

theorem subDays_mono (n : ℕ) (a b : Date) (ha : a.Valid) (hb : b.Valid)
    (h : dateLe a b) : dateLe (subDays n a) (subDays n b) := by
  induction n with
  | zero => exact h
  | succ n ih =>
      unfold subDays at ih ⊢
      rw [Function.iterate_succ_apply', Function.iterate_succ_apply']
      exact subDay_mono _ _ (subDays_valid n a ha) (subDays_valid n b hb) ih

theorem dtLe_trans (a b c : DateTime) (h1 : dtLe a b) (h2 : dtLe b c) : dtLe a c := by
  obtain ⟨⟨ya, ma, da⟩, ha⟩ := a
  obtain ⟨⟨yb, mb, db⟩, hb⟩ := b
  obtain ⟨⟨yc, mc, dc⟩, hc⟩ := c
  simp only [dtLe] at h1 h2 ⊢
  omega

theorem dtLe_antisymm (a b : DateTime) (h1 : dtLe a b) (h2 : dtLe b a) : a = b := by
  obtain ⟨⟨ya, ma, da⟩, ha⟩ := a
  obtain ⟨⟨yb, mb, db⟩, hb⟩ := b
  simp only [dtLe] at h1 h2
  simp only [DateTime.mk.injEq, Date.mk.injEq]
  omega

theorem dateLe_of_dtLe (a b : DateTime) (h : dtLe a b) : dateLe a.date b.date := by
  obtain ⟨⟨ya, ma, da⟩, ha⟩ := a
  obtain ⟨⟨yb, mb, db⟩, hb⟩ := b
  simp only [dtLe] at h
  simp only [dateLe]
  omega

theorem monthKeyC_mono (off : ℕ) (a b : DateTime) (ha : a.date.Valid)
    (hb : b.date.Valid) (h : dtLe a b) : dtLe (monthKeyC off a) (monthKeyC off b) := by
  have h2 : dateLe (subDays off a.date) (subDays off b.date) :=
    subDays_mono off _ _ ha hb (dateLe_of_dtLe a b h)
  unfold monthKeyC
  simp only [dtLe]
  simp only [dateLe] at h2
  norm_num
  omega

end CalendarLemmas

section AggLemmas

variable (hd : Date → Bool) (f : ConsumptionRec → DateTime)

theorem addToBucket_datetime (b : ConsumptionAgg) (c : ConsumptionRec) :
    (addToBucket hd b c).datetime = b.datetime := rfl

theorem newBucket_datetime (k : DateTime) (c : ConsumptionRec) :
    (newBucket hd k c).datetime = k := rfl

theorem foldl_addToBucket_datetime (l : List ConsumptionRec) :
    ∀ cur : ConsumptionAgg, (l.foldl (addToBucket hd) cur).datetime = cur.datetime := by
  induction l with
  | nil => intro cur; rfl
  | cons c cs ih =>
      intro cur
      simp only [List.foldl_cons]
      rw [ih]
      exact addToBucket_datetime hd cur c

theorem foldl_addToBucket_value (l : List ConsumptionRec) :
    ∀ cur : ConsumptionAgg, (l.foldl (addToBucket hd) cur).value_kWh =
      cur.value_kWh + (l.map (fun c => c.value_kWh)).sum := by
  induction l with
  | nil => intro cur; simp
  | cons c cs ih =>
      intro cur
      simp only [List.foldl_cons, List.map_cons, List.sum_cons]
      rw [ih]
      have hv : (addToBucket hd cur c).value_kWh = cur.value_kWh + c.value_kWh := rfl
      rw [hv]
      ring

theorem aggRuns_split (cs : List ConsumptionRec) :
    ∀ cur : ConsumptionAgg,
      aggRuns hd f cur cs =
        ((cs.takeWhile (fun c => decide (f c = cur.datetime))).foldl (addToBucket hd) cur)
          :: aggConsume hd f (cs.dropWhile (fun c => decide (f c = cur.datetime))) := by
  induction cs with
  | nil =>
      intro cur
      simp [aggRuns, aggConsume]
  | cons c cs ih =>
      intro cur
      by_cases h : f c = cur.datetime
      · have hb : decide (f c = cur.datetime) = true := decide_eq_true h
        simp only [aggRuns, if_pos h, List.takeWhile_cons, List.dropWhile_cons, hb,
          List.foldl_cons, ite_true]
        rw [ih (addToBucket hd cur c)]
        simp only [addToBucket_datetime]
      · have hb : decide (f c = cur.datetime) = false := decide_eq_false h
        simp only [aggRuns, if_neg h, List.takeWhile_cons, List.dropWhile_cons, hb,
          Bool.false_eq_true, ite_false, List.foldl_nil, aggConsume]

theorem aggRuns_key_mem (cs : List ConsumptionRec) :
    ∀ (cur b : ConsumptionAgg), b ∈ aggRuns hd f cur cs →
      b.datetime = cur.datetime ∨ ∃ c ∈ cs, b.datetime = f c := by
  induction cs with
  | nil =>
      intro cur b hb
      simp only [aggRuns, List.mem_singleton] at hb
      left
      rw [hb]
  | cons c cs ih =>
      intro cur b hb
      by_cases h : f c = cur.datetime
      · simp only [aggRuns, if_pos h] at hb
        rcases ih (addToBucket hd cur c) b hb with h1 | ⟨r, hr, hbr⟩
        · left
          rwa [addToBucket_datetime] at h1
        · right
          exact ⟨r, List.mem_cons_of_mem c hr, hbr⟩
      · simp only [aggRuns, if_neg h] at hb
        rcases List.mem_cons.mp hb with rfl | hb'
        · left; rfl
        · rcases ih (newBucket hd (f c) c) b hb' with h1 | ⟨r, hr, hbr⟩
          · right
            exact ⟨c, List.mem_cons_self c cs, by rwa [newBucket_datetime] at h1⟩
          · right
            exact ⟨r, List.mem_cons_of_mem c hr, hbr⟩

theorem aggConsume_key_mem (l : List ConsumptionRec) (b : ConsumptionAgg)
    (hb : b ∈ aggConsume hd f l) : ∃ c ∈ l, b.datetime = f c := by
  cases l with
  | nil => simp [aggConsume] at hb
  | cons c cs =>
      rw [show aggConsume hd f (c :: cs) = aggRuns hd f (newBucket hd (f c) c) cs from rfl] at hb
      rcases aggRuns_key_mem hd f cs _ b hb with h1 | ⟨r, hr, hbr⟩
      · exact ⟨c, List.mem_cons_self c cs, by rwa [newBucket_datetime] at h1⟩
      · exact ⟨r, List.mem_cons_of_mem c hr, hbr⟩

theorem filter_eq_takeWhile_sorted (k : DateTime) (l : List ConsumptionRec) :
    l.Pairwise (fun a b => dtLe (f a) (f b)) →
    (∀ c ∈ l, dtLe k (f c)) →
    l.filter (fun c => decide (f c = k)) = l.takeWhile (fun c => decide (f c = k)) := by
  induction l with
  | nil => intro _ _; rfl
  | cons c cs ih =>
      intro hp hub
      obtain ⟨hrel, hp'⟩ := List.pairwise_cons.mp hp
      by_cases h : f c = k
      · have hb : decide (f c = k) = true := decide_eq_true h
        simp only [List.filter_cons, List.takeWhile_cons, hb, ite_true]
        rw [ih hp' (fun x hx => hub x (List.mem_cons_of_mem c hx))]
      · have hb : decide (f c = k) = false := decide_eq_false h
        simp only [List.filter_cons, List.takeWhile_cons, hb, Bool.false_eq_true, ite_false]
        rw [List.filter_eq_nil_iff]
        intro x hx
        simp only [decide_eq_true_eq]
        intro hxk
        have h1 : dtLe (f c) (f x) := hrel x hx
        have h2 : dtLe k (f c) := hub c (List.mem_cons_self c cs)
        exact h (dtLe_antisymm (f c) k (hxk ▸ h1) h2)

theorem dropWhile_key_ne (k : DateTime) (l : List ConsumptionRec) :
    l.Pairwise (fun a b => dtLe (f a) (f b)) →
    (∀ c ∈ l, dtLe k (f c)) →
    ∀ c ∈ l.dropWhile (fun c => decide (f c = k)), f c ≠ k := by
  induction l with
  | nil =>
      intro _ _ c hc
      simp at hc
  | cons c cs ih =>
      intro hp hub x hx
      obtain ⟨hrel, hp'⟩ := List.pairwise_cons.mp hp
      by_cases h : f c = k
      · rw [List.dropWhile_cons, if_pos (by simpa using h)] at hx
        exact ih hp' (fun y hy => hub y (List.mem_cons_of_mem c hy)) x hx
      · rw [List.dropWhile_cons, if_neg (by simpa using h)] at hx
        rcases List.mem_cons.mp hx with rfl | hx'
        · exact h
        · intro hxk
          have h1 : dtLe (f c) (f x) := hrel x hx'
          have h2 : dtLe k (f c) := hub c (List.mem_cons_self c cs)
          exact h (dtLe_antisymm (f c) k (hxk ▸ h1) h2)

theorem aggConsume_value_sum (n : ℕ) :
    ∀ l : List ConsumptionRec, l.length ≤ n →
      l.Pairwise (fun a b => dtLe (f a) (f b)) →
      ∀ b ∈ aggConsume hd f l,
        b.value_kWh = ((l.filter (fun c => decide (f c = b.datetime))).map
          (fun c => c.value_kWh)).sum := by
  induction n with
  | zero =>
      intro l hl _ b hb
      obtain rfl : l = [] := List.length_eq_zero.mp (Nat.le_zero.mp hl)
      simp [aggConsume] at hb
  | succ n ih =>
      intro l hl hp b hb
      cases l with
      | nil => simp [aggConsume] at hb
      | cons c cs =>
          obtain ⟨hub, hp'⟩ := List.pairwise_cons.mp hp
          rw [show aggConsume hd f (c :: cs) = aggRuns hd f (newBucket hd (f c) c) cs
            from rfl] at hb
          rw [aggRuns_split hd f cs (newBucket hd (f c) c)] at hb
          simp only [newBucket_datetime] at hb
          rcases List.mem_cons.mp hb with rfl | htail
          · -- the head bucket: opened from `c`, merged with the whole run of key `f c`
            have hbd : ((cs.takeWhile (fun x => decide (f x = f c))).foldl
                (addToBucket hd) (newBucket hd (f c) c)).datetime = f c := by
              rw [foldl_addToBucket_datetime]
              exact newBucket_datetime hd (f c) c
            rw [foldl_addToBucket_value, hbd]
            have hnv : (newBucket hd (f c) c).value_kWh = c.value_kWh := rfl
            rw [hnv]
            have hc : decide (f c = f c) = true := decide_eq_true rfl
            rw [List.filter_cons, if_pos hc,
              filter_eq_takeWhile_sorted f (f c) cs hp' hub]
            simp
          · -- a later bucket: its key occurs only past the head run
            obtain ⟨r, hr, hbr⟩ := aggConsume_key_mem hd f _ b htail
            have hrne : f r ≠ f c := dropWhile_key_ne f (f c) cs hp' hub r hr
            have hbne : b.datetime ≠ f c := by rw [hbr]; exact hrne
            have hlen : (cs.dropWhile (fun x => decide (f x = f c))).length ≤ n :=
              le_trans (List.Sublist.length_le (List.dropWhile_sublist _))
                (Nat.le_of_succ_le_succ (by simpa using hl))
            have ihb := ih (cs.dropWhile (fun x => decide (f x = f c))) hlen
              (List.Pairwise.sublist (List.dropWhile_sublist _) hp') b htail
            rw [ihb]
            have hfc : decide (f c = b.datetime) = false :=
              decide_eq_false (fun hcb => hbne hcb.symm)
            rw [List.filter_cons, if_neg (by rw [hfc]; exact Bool.false_ne_true)]
            conv_rhs =>
              rw [← List.takeWhile_append_dropWhile (fun x => decide (f x = f c)) cs]
            rw [List.filter_append]
            have hnil : (cs.takeWhile (fun x => decide (f x = f c))).filter
                (fun x => decide (f x = b.datetime)) = [] := by
              rw [List.filter_eq_nil_iff]
              intro x hx
              have hxc : f x = f c := by
                have := List.mem_takeWhile_imp hx
                simpa using this
              simp only [decide_eq_true_eq]
              intro hxb
              exact hbne (hxb.symm.trans hxc)
            rw [hnil, List.nil_append]

end AggLemmas

/-! ## Claim theorems -/

/-- C1, counterexample.  The claim says reconciliation is idempotent for
every existing series, incoming batch and key — "including when A
contains two records sharing the same key value".  With `S = []` and
`A = [(0,2),(0,3)]` (two records with key `0`), one application yields
`[(0,2),(0,3)]`, while a second application overwrites the first
occurrence of key `0` twice and yields `[(0,3),(0,3)]`: the claim as
stated is false. -/
theorem claim_C1_counterexample :
    extend_by_key Prod.fst (extend_by_key Prod.fst ([] : List (ℕ × ℕ)) [(0, 2), (0, 3)])
        [(0, 2), (0, 3)] ≠
      extend_by_key Prod.fst ([] : List (ℕ × ℕ)) [(0, 2), (0, 3)] := by decide

/-- C1, amended.  `extend_by_key` is idempotent for every existing series
`S`, incoming batch `A` and key field, provided the incoming batch
carries pairwise-distinct key values: reconciling the same batch twice
equals reconciling it once. -/
theorem claim_C1_idempotent {ρ α : Type} [DecidableEq α] (keyf : ρ → α)
    (S A : List ρ) (hnd : (A.map keyf).Nodup) :
    extend_by_key keyf (extend_by_key keyf S A) A = extend_by_key keyf S A := by
  have h : ∀ a ∈ A, get_by_key keyf (extend_by_key keyf S A) (keyf a) = some a :=
    fun a ha => extendCore_get_self keyf S A hnd a ha
  have hfix := extendCore_fix keyf A (extend_by_key keyf S A) h
  show (extendCore keyf (extend_by_key keyf S A) A).1 ++
      (extendCore keyf (extend_by_key keyf S A) A).2 = extend_by_key keyf S A
  rw [hfix]
  simp

/-- C1, witness: the amended idempotence at a concrete series and batch
with distinct keys. -/
theorem claim_C1_witness :
    ((([((0:ℕ), (2:ℕ)), (1, 7)]).map Prod.fst).Nodup) ∧
    extend_by_key Prod.fst (extend_by_key Prod.fst [((1:ℕ), (5:ℕ))] [(0, 2), (1, 7)])
        [(0, 2), (1, 7)] =
      extend_by_key Prod.fst [((1:ℕ), (5:ℕ))] [(0, 2), (1, 7)] :=
  ⟨by decide, claim_C1_idempotent Prod.fst [(1, 5)] [(0, 2), (1, 7)] (by decide)⟩

/-- C2, counterexample.  The claim says every incoming record whose key
matches an existing record ends up in the result with the existing
fields fully replaced by that incoming record.  With existing
`[(0,5)]` and incoming `[(0,1),(0,2)]`, the incoming record `(0,1)`
matches key `0`, yet the result `[(0,2)]` does not contain it (a later
duplicate-key incoming record overwrote it again): the claim as stated
is false. -/
theorem claim_C2_counterexample :
    ((0, 1) : ℕ × ℕ) ∈ ([(0, 1), (0, 2)] : List (ℕ × ℕ)) ∧
    (∃ b ∈ ([(0, 5)] : List (ℕ × ℕ)), Prod.fst b = Prod.fst ((0, 1) : ℕ × ℕ)) ∧
    ((0, 1) : ℕ × ℕ) ∉ extend_by_key Prod.fst ([(0, 5)] : List (ℕ × ℕ)) [(0, 1), (0, 2)] := by
  decide

/-- C2, amended.  Provided the incoming batch carries pairwise-distinct
key values: every incoming record whose key matches an existing record
appears in the result (the matched record's fields are fully replaced,
incoming wins); the appended part (`temp_list`) is exactly the incoming
records whose key is absent from the existing series, in order; and the
concrete scenario holds: reconciling existing `[{ts:0, kWh:0.2}]` with
incoming `[{ts:0, kWh:0.3}, {ts:1, kWh:0.1}]` on key `ts` yields exactly
2 records, the first overwritten to `kWh 0.3`. -/
theorem claim_C2_incoming_wins {ρ α : Type} [DecidableEq α] (keyf : ρ → α)
    (S A : List ρ) (hnd : (A.map keyf).Nodup) :
    (∀ a ∈ A, (∃ b ∈ S, keyf b = keyf a) → a ∈ extend_by_key keyf S A) ∧
    (extendCore keyf S A).2 = A.filter (fun a => decide (keyf a ∉ S.map keyf)) ∧
    extend_by_key Prod.fst [((0:ℕ), (2:ℚ)/10)] [(0, 3/10), (1, 1/10)] =
      [(0, 3/10), (1, 1/10)] := by
  refine ⟨?_, extendCore_temp keyf S A, rfl⟩
  intro a ha _
  exact get_by_key_mem keyf _ _ a (extendCore_get_self keyf S A hnd a ha)

/-- C2, witness: the amended statement at a concrete existing series and
distinct-key batch. -/
theorem claim_C2_witness :
    ((([((0:ℕ), (9:ℕ)), (1, 7)]).map Prod.fst).Nodup) ∧
    ((∀ a ∈ [((0:ℕ), (9:ℕ)), (1, 7)],
        (∃ b ∈ [((0:ℕ), (5:ℕ))], Prod.fst b = Prod.fst a) →
          a ∈ extend_by_key Prod.fst [(0, 5)] [(0, 9), (1, 7)]) ∧
      (extendCore Prod.fst [((0:ℕ), (5:ℕ))] [(0, 9), (1, 7)]).2 =
        [((0:ℕ), (9:ℕ)), (1, 7)].filter
          (fun a => decide (Prod.fst a ∉ [((0:ℕ), (5:ℕ))].map Prod.fst)) ∧
      extend_by_key Prod.fst [((0:ℕ), (2:ℚ)/10)] [(0, 3/10), (1, 1/10)] =
        [(0, 3/10), (1, 1/10)]) :=
  ⟨by decide, claim_C2_incoming_wins Prod.fst [(0, 5)] [(0, 9), (1, 7)] (by decide)⟩

/-- C3, code-bug evaluation.  The claim (and the code's own
`# remove duplicates` comment) say the filtered series keeps every
in-window record with a distinct timestamp, dropping only duplicates.
On three records with distinct timestamps 0, 1, 2 (each `delta_h = 1`,
as hourly consumption records carry) over the window `[0, 2]`, the code
returns only the record at 1: the record at timestamp `dt_from` is
dropped against the initial cursor, and the record at 2 is dropped
against the cursor `1 + delta_h` advanced past the end of record 1. -/
theorem claim_C3_failing_eval :
    extract_dt_ranges [⟨0, some 1⟩, ⟨1, some 1⟩, ⟨2, some 1⟩] 0 2 6 =
      ([⟨1, some 1⟩], []) ∧
    ([⟨0, some 1⟩, ⟨1, some 1⟩, ⟨2, some 1⟩] : List TsRec).map TsRec.datetime = [0, 1, 2] ∧
    ([(0:ℤ), 1, 2]).Nodup := by decide

/-- C4, counterexample.  The claim says a trailing gap is emitted iff
`to - cursor` exceeds `gap_interval`, so a positive remainder within the
tolerance must produce no trailing gap.  With one record at 1 (so the
final cursor is 1), window `[0, 2]` and `gap_interval = 1`, the
remainder `2 - 1 = 1` is positive and does not exceed the tolerance, yet
the code emits the trailing gap `{1, 2}` (its test is `dt_to > last_dt`,
not `dt_to - last_dt > gap_interval`): the claim as stated is false. -/
theorem claim_C4_counterexample :
    (extract_dt_ranges [⟨1, none⟩] 0 2 1).2 = [⟨1, 2⟩] ∧
    cursorAfter [⟨1, none⟩] 0 2 = 1 ∧
    ((2:ℤ) - 1 ≤ 1) ∧ ((0:ℤ) < 2 - 1) := by decide

/-- C4, amended.  For every nonempty series the reported gap list is the
interior gaps followed by a trailing gap `{cursor, to}` exactly when
`cursor < to` — i.e. whenever any positive span remains after the last
kept record, regardless of `gap_interval` (the tolerance filters only
interior gaps). -/
theorem claim_C4_trailing_gap (lst : List TsRec) (dt_from dt_to gap_interval : ℤ)
    (h : lst ≠ []) :
    (extract_dt_ranges lst dt_from dt_to gap_interval).2 =
      interiorGaps lst dt_from dt_to gap_interval ++
        (if cursorAfter lst dt_from dt_to < dt_to then
          [⟨cursorAfter lst dt_from dt_to, dt_to⟩] else []) := by
  unfold extract_dt_ranges interiorGaps cursorAfter
  rw [if_pos (by simpa using List.length_pos.mpr h)]
  have hm : (List.foldl (extractStep dt_from dt_to gap_interval) ⟨[], [], dt_from⟩
        (sortRecs lst)).missing =
      (List.foldl (intStep dt_from dt_to gap_interval) (dt_from, []) (sortRecs lst)).2 :=
    foldl_extract_missing dt_from dt_to gap_interval (sortRecs lst) ⟨[], [], dt_from⟩
  have hl : (List.foldl (extractStep dt_from dt_to gap_interval) ⟨[], [], dt_from⟩
        (sortRecs lst)).last_dt =
      List.foldl (cursorStep dt_from dt_to) dt_from (sortRecs lst) :=
    foldl_extract_last dt_from dt_to gap_interval (sortRecs lst) ⟨[], [], dt_from⟩
  dsimp only
  rw [hm, hl]
  split_ifs with hc
  · rfl
  · simp

/-- C4, witness: the amended decomposition at a concrete nonempty series,
where an interior gap and a trailing gap both appear. -/
theorem claim_C4_witness :
    ([(⟨5, none⟩ : TsRec)] ≠ []) ∧
    (extract_dt_ranges [⟨5, none⟩] 0 10 1).2 =
      interiorGaps [⟨5, none⟩] 0 10 1 ++
        (if cursorAfter [⟨5, none⟩] 0 10 < 10 then
          [⟨cursorAfter [⟨5, none⟩] 0 10, 10⟩] else []) :=
  ⟨by decide, claim_C4_trailing_gap [⟨5, none⟩] 0 10 1 (by decide)⟩

/-- C5.  Aggregation sum law: for every holiday calendar, every
`cycle_start_day` from 1 to 30 and every sorted consumption series with
well-formed dates, each monthly bucket produced by
`ConsumptionProcessor.do_process` carries as `value_kWh` the sum of
`value_kWh` over exactly the input records assigned to that billing
month bucket, rounded to 2 decimal places only after the full pass. -/
theorem claim_C5_aggregation_sum (hdays : Date → Bool) (cycle_start_day : ℕ)
    (h1 : 1 ≤ cycle_start_day) (h2 : cycle_start_day ≤ 30)
    (input : List ConsumptionRec)
    (hvalid : ∀ r ∈ input, r.datetime.date.Valid)
    (hsorted : input.Pairwise (fun a b => dtLe a.datetime b.datetime)) :
    ∀ b ∈ (consumption_do_process hdays cycle_start_day input).2,
      b.value_kWh = round2 (((input.filter (fun c =>
          decide (monthKeyC (cycle_start_day - 1) c.datetime = b.datetime))).map
            (fun c => c.value_kWh)).sum) := by
  intro b hb
  unfold consumption_do_process at hb
  dsimp only at hb
  rw [List.mem_map] at hb
  obtain ⟨b0, hb0, rfl⟩ := hb
  have hkey : input.Pairwise (fun a c =>
      dtLe (monthKeyC (cycle_start_day - 1) a.datetime)
        (monthKeyC (cycle_start_day - 1) c.datetime)) := by
    refine List.Pairwise.imp_of_mem ?_ hsorted
    intro a c ha hc hrel
    exact monthKeyC_mono _ _ _ (hvalid a ha) (hvalid c hc) hrel
  have hsum := aggConsume_value_sum hdays
    (fun c => monthKeyC (cycle_start_day - 1) c.datetime)
    input.length input le_rfl hkey b0 hb0
  have hv : (roundBucket b0).value_kWh = round2 b0.value_kWh := rfl
  have hdt : (roundBucket b0).datetime = b0.datetime := rfl
  rw [hv, hdt, hsum]

/-- C5, witness: the sum law at a concrete two-record series spanning two
billing months with `cycle_start_day = 15`. -/
theorem claim_C5_witness :
    (1 ≤ 15 ∧ 15 ≤ 30 ∧
      (∀ r ∈ sampleConsumptions, r.datetime.date.Valid) ∧
      sampleConsumptions.Pairwise (fun a b => dtLe a.datetime b.datetime)) ∧
    ∀ b ∈ (consumption_do_process (fun _ => false) 15 sampleConsumptions).2,
      b.value_kWh = round2 (((sampleConsumptions.filter (fun c =>
          decide (monthKeyC (15 - 1) c.datetime = b.datetime))).map
            (fun c => c.value_kWh)).sum) :=
  ⟨⟨by decide, by decide, by decide, by decide⟩,
    claim_C5_aggregation_sum (fun _ => false) 15 (by decide) (by decide)
      sampleConsumptions (by decide) (by decide)⟩

/-- C6, counterexample.  The claim says the billing roll-up assigns each
hourly cost record to the monthly bucket shifted by
`cycle_start_day - 1` days for every `cycle_start_day`, matching the
consumption aggregation.  At 2023-01-10 with `cycle_start_day = 15`, the
consumption aggregation's bucket is 2022-12-01 while the billing
processor's bucket is 2023-01-01: the claim as stated is false. -/
theorem claim_C6_counterexample :
    billingMonthKey ⟨⟨2023, 1, 10⟩, 0⟩ ≠ consumptionMonthKey 15 ⟨⟨2023, 1, 10⟩, 0⟩ := by
  decide

/-- C6, amended.  The billing processor's monthly bucket key is the plain
calendar month (`replace(day=1)`, no configurable cycle start:
`BillingProcessor.do_process` accepts no `cycle_start_day` at all); it
coincides with the consumption aggregation's billing-month bucketing
exactly for `cycle_start_day = 1`. -/
theorem claim_C6_billing_calendar_month :
    ∀ dt : DateTime, billingMonthKey dt = consumptionMonthKey 1 dt := fun _ => rfl

/-- C7.  The tariff classifier is total: every timestamp is mapped to
exactly one of p1, p2, p3; it returns p3 exactly on Saturdays (weekday
5), Sundays (weekday 6), holidays, and the hours outside the p1/p2
sets; p1 exactly on non-weekend non-holiday days at hours
{10,11,12,13,18,19,20,21}; and p2 exactly on such days at hours
{8,9,14,15,16,17,22,23}. -/
theorem claim_C7_tariff_partition :
    ∀ (hdays : Date → Bool) (dt : DateTime),
      (get_pvpc_tariff hdays dt = .p1 ∨ get_pvpc_tariff hdays dt = .p2 ∨
        get_pvpc_tariff hdays dt = .p3) ∧
      (get_pvpc_tariff hdays dt = .p3 ↔
        ((dt.date.weekday = 5 ∨ dt.date.weekday = 6 ∨ hdays dt.date = true) ∨
          (dt.hour ∉ HOURS_P1 ∧ dt.hour ∉ HOURS_P2))) ∧
      (get_pvpc_tariff hdays dt = .p1 ↔
        (¬(dt.date.weekday = 5 ∨ dt.date.weekday = 6 ∨ hdays dt.date = true) ∧
          dt.hour ∈ HOURS_P1)) ∧
      (get_pvpc_tariff hdays dt = .p2 ↔
        (¬(dt.date.weekday = 5 ∨ dt.date.weekday = 6 ∨ hdays dt.date = true) ∧
          dt.hour ∈ HOURS_P2)) := by
  intro hdays dt
  have hdisj : dt.hour ∈ HOURS_P1 → dt.hour ∈ HOURS_P2 → False := by
    intro hp1 hp2
    simp only [HOURS_P1, HOURS_P2, List.mem_cons, List.not_mem_nil, or_false] at hp1 hp2
    omega
  have hwiff : (dt.date.weekday ∈ WEEKDAYS_P3 ∨ hdays dt.date = true) ↔
      (dt.date.weekday = 5 ∨ dt.date.weekday = 6 ∨ hdays dt.date = true) := by
    simp [WEEKDAYS_P3, or_assoc]
  unfold get_pvpc_tariff
  by_cases h1 : dt.date.weekday ∈ WEEKDAYS_P3 ∨ hdays dt.date = true
  · rw [if_pos h1]
    have h1' := hwiff.mp h1
    exact ⟨Or.inr (Or.inr rfl),
      ⟨fun _ => Or.inl h1', fun _ => rfl⟩,
      ⟨fun hcon => absurd hcon (by decide), fun ⟨hn, _⟩ => absurd h1' hn⟩,
      ⟨fun hcon => absurd hcon (by decide), fun ⟨hn, _⟩ => absurd h1' hn⟩⟩
  · rw [if_neg h1]
    have h1' : ¬(dt.date.weekday = 5 ∨ dt.date.weekday = 6 ∨ hdays dt.date = true) :=
      fun hcon => h1 (hwiff.mpr hcon)
    by_cases h2 : dt.hour ∈ HOURS_P1
    · rw [if_pos h2]
      exact ⟨Or.inl rfl,
        ⟨fun hcon => absurd hcon (by decide),
          fun hcon => hcon.elim (fun hw => absurd hw h1')
            (fun ⟨hn1, _⟩ => absurd h2 hn1)⟩,
        ⟨fun _ => ⟨h1', h2⟩, fun _ => rfl⟩,
        ⟨fun hcon => absurd hcon (by decide),
          fun ⟨_, hp2⟩ => (hdisj h2 hp2).elim⟩⟩
    · rw [if_neg h2]
      by_cases h3 : dt.hour ∈ HOURS_P2
      · rw [if_pos h3]
        exact ⟨Or.inr (Or.inl rfl),
          ⟨fun hcon => absurd hcon (by decide),
            fun hcon => hcon.elim (fun hw => absurd hw h1')
              (fun ⟨_, hn2⟩ => absurd h3 hn2)⟩,
          ⟨fun hcon => absurd hcon (by decide),
            fun ⟨_, hp1⟩ => (hdisj hp1 h3).elim⟩,
          ⟨fun _ => ⟨h1', h3⟩, fun _ => rfl⟩⟩
      · rw [if_neg h3]
        exact ⟨Or.inr (Or.inr rfl),
          ⟨fun _ => Or.inr ⟨h2, h3⟩, fun _ => rfl⟩,
          ⟨fun hcon => absurd hcon (by decide),
            fun ⟨_, hp1⟩ => absurd hp1 h2⟩,
          ⟨fun hcon => absurd hcon (by decide),
            fun ⟨_, hp2⟩ => absurd hp2 h3⟩⟩

/-- C8.  On an empty series, `extract_dt_ranges` returns an empty
filtered list and exactly one gap spanning the whole requested window,
for every window and every gap tolerance. -/
theorem claim_C8_empty_series (dt_from dt_to gap_interval : ℤ) :
    extract_dt_ranges [] dt_from dt_to gap_interval = ([], [⟨dt_from, dt_to⟩]) := rfl

/-- C9, counterexample.  The claim says a fetched supply list that lacks
the requested meter id makes `update_datadis` fail with a
`NotFoundError`, an outcome distinct from the empty-list "try later"
result.  The code raises nothing (no `NotFoundError` exists in the
repository): with supplies `["ES001"]` and requested cups `"ES002"` it
returns `False`, the same return value as the empty-supply-list path:
the claim as stated is false. -/
theorem claim_C9_counterexample :
    (update_datadis_supply_check [⟨"ES001"⟩] "ES002").raised = none ∧
    (update_datadis_supply_check [⟨"ES001"⟩] "ES002").retval =
      (update_datadis_supply_check [] "ES002").retval := by decide

/-- C9, amended.  When the supply list is nonempty and no supply matches
the requested cups, `update_datadis` returns `False` without raising,
logging at error level — distinguished from the empty-supply-list path
(also returning `False`) only by the log severity (error vs warning). -/
theorem claim_C9_returns_false (supplies : List SupplyData) (cups : String)
    (h1 : supplies ≠ [])
    (h2 : get_by_key (fun s : SupplyData => s.cups) supplies cups = none) :
    update_datadis_supply_check supplies cups = ⟨some false, none, some .error⟩ ∧
    update_datadis_supply_check supplies cups ≠ update_datadis_supply_check [] cups := by
  have hlen : ¬ supplies.length = 0 := by
    simpa [List.length_eq_zero] using h1
  unfold update_datadis_supply_check
  refine ⟨?_, ?_⟩ <;> rw [if_neg hlen, h2]
  intro hcon
  have hlog : (some LogLevel.error : Option LogLevel) = some LogLevel.warning :=
    congrArg UpdateStepOutcome.log hcon
  simp at hlog

/-- C9, witness: the amended outcome at a concrete supply list lacking
the requested cups. -/
theorem claim_C9_witness :
    ([(⟨"ES001"⟩ : SupplyData)] ≠ []) ∧
    (get_by_key (fun s : SupplyData => s.cups) [⟨"ES001"⟩] "ES002" = none) ∧
    (update_datadis_supply_check [⟨"ES001"⟩] "ES002" =
        ⟨some false, none, some .error⟩ ∧
      update_datadis_supply_check [⟨"ES001"⟩] "ES002" ≠
        update_datadis_supply_check [] "ES002") :=
  ⟨by decide, by decide,
    claim_C9_returns_false [⟨"ES001"⟩] "ES002" (by decide) (by decide)⟩

/-- C10, code-bug evaluation.  The claim (and the repository's own
serialization tests, which require documents with bad records to be
rejected) says `check_integrity` returns `True` iff every required key
is present, and `deserialize_dict` returns `None` when a record of a
canonical series misses a required field.  Both branches of
`check_integrity` return `True`, so a consumption record with no keys at
all passes and the document is accepted. -/
theorem claim_C10_failing_eval :
    check_integrity [] ConsumptionData_required = true ∧
    "datetime" ∈ ConsumptionData_required ∧
    deserialize_dict [("consumptions", [[]])] = some [("consumptions", [[]])] := by
  decide

end Edata
